import Mathlib

/-!
Shallow embedding of the `sqlschema` migration engine.

Source files embedded:
* `open.go` — the entry point `Apply` (load update files, begin a transaction,
  create the `schema_updates` log table if absent, read the applied log,
  reconcile it against the loaded updates, execute the pending updates while
  recording log rows, commit; rollback on any failure).
* `filter.go` — the standalone helpers `updates` (the loader) and `filter`
  (the reconciler working on a transaction).
* `apply.go` — the standalone applicator `apply`.

SQL execution, hashing and wall-clock time are external collaborators of the
engine, so they enter the model as components of an `Env`: an abstract schema
state `σ`, a fallible statement executor `exec`, a content hash `hash`, a
timestamp source `now`, and failure-injection flags for the database calls the
engine makes (begin / create table / select / insert / commit).  The log table
itself is modelled explicitly (`none` = table absent), since the engine reads
and writes it directly.
-/

namespace SqlSchema

/-- One schema update (Go struct `update` in `open.go`): its file name, the
sequence number parsed from the name, the hex sha1 of the contents, a
timestamp (empty until recorded), and the raw SQL text. -/
structure Update where
  filename : String
  seq : Nat
  sha1 : String
  timestamp : String
  contents : String
  deriving DecidableEq

/-- One row of the `schema_updates` log table. -/
structure LogRow where
  filename : String
  seq : Nat
  sha1 : String
  timestamp : String
  contents : String
  deriving DecidableEq

/-- One entry of the flat update-file collection (`http.FileSystem` contents):
name, directory flag, raw file bytes. -/
structure FileEntry where
  name : String
  isDir : Bool
  contents : String
  deriving DecidableEq

/-- Database state: the `schema_updates` table (absent when `none`) and the
abstract user schema `σ` that update statements act on. -/
structure DBState (σ : Type) where
  logTable : Option (List LogRow)
  schema : σ
  deriving DecidableEq

/-- The two domain error kinds of the library plus the generic wrapped kind
(`InvalidUpdateFilesError`, `UpdateSchemaError`, plain `error`). -/
inductive ErrKind where
  | invalidFiles
  | updateSchema
  | otherErr
  deriving DecidableEq

/-- Every error return site of `Apply` (`open.go`), one constructor per
`fmt.Errorf` site, carrying the data interpolated into the message. -/
inductive ApplyError where
  | noUpdateFiles
  | dirEntry (name : String)
  | badName (name : String)
  | firstNotOne (name : String)
  | notInSequence (name prev : String)
  | beginFailed
  | createTableFailed
  | queryFailed
  | unknownApplied (seq : Nat)
  | seqMismatch (seen expected : Nat)
  | checksumMismatch (seq : Nat) (got expected : String)
  | applyFailed (seq : Nat) (filename : String)
  | recordFailed (seq : Nat) (filename : String)
  | commitFailed
  deriving DecidableEq

/-- The error kind each return site wraps its cause in: the file-validation
errors are `InvalidUpdateFilesError`, a `db.Begin` failure is returned raw,
and every failure inside the transaction is `UpdateSchemaError`. -/
def ApplyError.kind : ApplyError → ErrKind
  | .noUpdateFiles => .invalidFiles
  | .dirEntry _ => .invalidFiles
  | .badName _ => .invalidFiles
  | .firstNotOne _ => .invalidFiles
  | .notInSequence _ _ => .invalidFiles
  | .beginFailed => .otherErr
  | .createTableFailed => .updateSchema
  | .queryFailed => .updateSchema
  | .unknownApplied _ => .updateSchema
  | .seqMismatch _ _ => .updateSchema
  | .checksumMismatch _ _ _ => .updateSchema
  | .applyFailed _ _ => .updateSchema
  | .recordFailed _ _ => .updateSchema
  | .commitFailed => .updateSchema

/-- Observable database interactions of one `Apply` invocation, in order. -/
inductive Event where
  | txBegin
  | execCreate
  | selectLog
  | execStmt (sqlText : String)
  | insertRow (row : LogRow)
  | txCommit
  | txRollback
  deriving DecidableEq

/-- External collaborators: content hash (`crypto/sha1` + hex), statement
execution against the user schema (`tx.Exec(up.contents)`), wall-clock
timestamps (`time.Now()`), and failure injection for the fixed database calls
(begin, create table, select of the log, insert of a log row, commit). -/
structure Env (σ : Type) where
  hash : String → String
  exec : σ → String → Option σ
  now : Nat → String
  beginFails : Bool
  createFails : Bool
  queryFails : Bool
  insertFails : LogRow → Bool
  commitFails : Bool

/-! ### Loader (`updates` in `filter.go`, inlined in `Apply` in `open.go`) -/

/-- Value of the largest `uint64`: `strconv.ParseUint(_, 10, 64)` saturates
here on overflow (the code discards the error and keeps the value). -/
def goMaxUint : Nat := 2 ^ 64 - 1

/-- Decimal digits to a number, most significant first. -/
def digitsToNat (cs : List Char) : Nat :=
  cs.foldl (fun a c => a * 10 + (c.toNat - 48)) 0

/-- `strings.TrimSuffix(s, ".sql")`: drop the suffix when present. -/
def trimSqlSuffix (s : String) : List Char :=
  if 4 ≤ s.data.length ∧ s.data.drop (s.data.length - 4) = ".sql".data
  then s.data.take (s.data.length - 4)
  else s.data

/-- `strconv.ParseUint(cs, 10, 64)` with the error discarded: a nonempty
all-digit string parses to its value saturated at `2^64 - 1`; anything else
yields `0` (the value Go returns alongside a syntax error). -/
def goParseUint (cs : List Char) : Nat :=
  if cs ≠ [] ∧ cs.all Char.isDigit then min (digitsToNat cs) goMaxUint else 0

/-- The sequence number the code derives from a file name:
`strconv.ParseUint(strings.TrimSuffix(name, ".sql"), 10, 64)`. -/
def parseSeq (name : String) : Nat := goParseUint (trimSqlSuffix name)

/-- The regular expression `^[0-9]+\.sql$`: at least one digit followed by the
literal `.sql`. -/
def matchesMask (s : String) : Bool :=
  decide (5 ≤ s.data.length)
  && decide (s.data.drop (s.data.length - 4) = ".sql".data)
  && (s.data.take (s.data.length - 4)).all Char.isDigit

/-- First validation loop of the loader: no entry may be a directory and every
name must match the mask; the first offender is reported. -/
def checkEntries : List FileEntry → Option ApplyError
  | [] => none
  | f :: fs =>
    if f.isDir then some (.dirEntry f.name)
    else if !matchesMask f.name then some (.badName f.name)
    else checkEntries fs

/-- Sort key used by `sort.Slice` in the loader. -/
def fileKey (f : FileEntry) : Nat := parseSeq f.name

/-- Insertion into a list sorted in ascending key order. -/
def insertByKey {α : Type} (key : α → Nat) (x : α) : List α → List α
  | [] => [x]
  | a :: t => if key x ≤ key a then x :: a :: t else a :: insertByKey key x t

/-- Sorting by a numeric key, ascending (models `sort.Slice` with the
`iNum < jNum` comparator). -/
def sortByKey {α : Type} (key : α → Nat) : List α → List α
  | [] => []
  | x :: xs => insertByKey key x (sortByKey key xs)

/-- Second validation loop, tail part: each file's parsed number must exceed
the previous one by exactly `1` (the code tests `this - prev != 1`). -/
def checkSeqFrom : FileEntry → List FileEntry → Option ApplyError
  | _, [] => none
  | prev, f :: fs =>
    if parseSeq f.name - parseSeq prev.name ≠ 1
    then some (.notInSequence f.name prev.name)
    else checkSeqFrom f fs

/-- Second validation loop of the loader: the first (numerically sorted) file
must parse to `1` and the numbers must then be contiguous. -/
def checkSeq : List FileEntry → Option ApplyError
  | [] => none
  | f :: fs =>
    if parseSeq f.name ≠ 1 then some (.firstNotOne f.name)
    else checkSeqFrom f fs

/-- Final loader loop: read each file and build its `update` record (sha1 of
the raw bytes, sequence from the name, timestamp left empty). -/
def buildUpdates (hash : String → String) (files : List FileEntry) : List Update :=
  files.map fun f =>
    { filename := f.name, seq := parseSeq f.name, sha1 := hash f.contents,
      timestamp := "", contents := f.contents }

/-- The loading phase of `Apply` (`open.go` lines 84–156): reject an empty
collection, validate entries, sort numerically, check the sequence, then build
the ordered update records. -/
def loadUpdates (hash : String → String) (files : List FileEntry) :
    Except ApplyError (List Update) :=
  if files.length < 1 then .error .noUpdateFiles
  else
    match checkEntries files with
    | some e => .error e
    | none =>
      match checkSeq (sortByKey fileKey files) with
      | some e => .error e
      | none => .ok (buildUpdates hash (sortByKey fileKey files))

/-- The standalone loader `updates` of `filter.go`, whose body is the same
code as the loading phase inlined in `Apply`. -/
def updates (hash : String → String) (files : List FileEntry) :
    Except ApplyError (List Update) :=
  if files.length < 1 then .error .noUpdateFiles
  else
    match checkEntries files with
    | some e => .error e
    | none =>
      match checkSeq (sortByKey fileKey files) with
      | some e => .error e
      | none => .ok (buildUpdates hash (sortByKey fileKey files))

/-! ### Reconciler (`filter` in `filter.go`, inlined in `Apply`) -/

/-- Sorting of the applied log: `SELECT filename, seq, sha1 FROM
schema_updates ORDER BY seq ASC`. -/
def sortBySeq (rows : List LogRow) : List LogRow :=
  sortByKey (fun r => r.seq) rows

/-- `CREATE TABLE IF NOT EXISTS schema_updates (...)`: makes the table exist,
keeping any rows it already had. -/
def createTable {σ : Type} (db : DBState σ) : DBState σ :=
  { db with logTable := some (db.logTable.getD []) }

/-- `tx.Query` of the applied log: fails when the table is absent or when
failure is injected, otherwise returns the rows ordered by ascending `seq`. -/
def queryLog {σ : Type} (env : Env σ) (tx : DBState σ) :
    Except ApplyError (List LogRow) :=
  match tx.logTable with
  | none => .error .queryFailed
  | some rows => if env.queryFails then .error .queryFailed else .ok (sortBySeq rows)

/-- The reconciliation loop inlined in `Apply` (`open.go` lines 186–207): walk
the applied rows, requiring each to match the head of the remaining available
updates on `seq` and `sha1`, dropping that head on a match; what is left is
the pending list. -/
def reconcile : List Update → List LogRow → Except ApplyError (List Update)
  | avail, [] => .ok avail
  | [], r :: _ => .error (.unknownApplied r.seq)
  | u :: us, r :: rs =>
    if r.seq ≠ u.seq then .error (.seqMismatch r.seq u.seq)
    else if r.sha1 ≠ u.sha1 then .error (.checksumMismatch r.seq r.sha1 u.sha1)
    else reconcile us rs

/-- Outcome of the standalone `filter`: a value, an error return, or a Go
runtime panic (`remaining[1:]` on an empty slice). -/
inductive FilterOut where
  | ok (remaining : List Update)
  | err (e : ApplyError)
  | panicked
  deriving DecidableEq

/-- The walk of `filter` (`filter.go` lines 33–53): for each applied row the
guards test the ORIGINAL `updates` list — `len(updates) == 0`, `up.seq !=
updates[0].seq`, `up.sha1 != updates[0].sha1` — never the shrinking
`remaining`, which is cut by `remaining = remaining[1:]` (a panic when it is
already empty). -/
def filterWalk (ups : List Update) : List LogRow → List Update → FilterOut
  | [], remaining => .ok remaining
  | r :: rs, remaining =>
    match ups with
    | [] => .err (.unknownApplied r.seq)
    | u :: _ =>
      if r.seq ≠ u.seq then .err (.seqMismatch r.seq u.seq)
      else if r.sha1 ≠ u.sha1 then .err (.checksumMismatch r.seq r.sha1 u.sha1)
      else
        match remaining with
        | [] => .panicked
        | _ :: rem => filterWalk ups rs rem

/-- The standalone reconciler `filter` of `filter.go`: query the applied log
on the given transaction, then run the walk with `remaining` starting as a
copy of `updates`. -/
def filter {σ : Type} (env : Env σ) (ups : List Update) (tx : DBState σ) : FilterOut :=
  match queryLog env tx with
  | .error e => .err e
  | .ok rows => filterWalk ups rows ups

/-! ### Applicator (`apply` in `apply.go`, inlined in `Apply`) -/

/-- The log row recorded for an executed update: `INSERT INTO
schema_updates(filename, seq, sha1, timestamp, contents)` with `time.Now()`
as the timestamp. -/
def rowOf {σ : Type} (env : Env σ) (up : Update) : LogRow :=
  { filename := up.filename, seq := up.seq, sha1 := up.sha1,
    timestamp := env.now up.seq, contents := up.contents }

/-- Insert of one log row: fails when the table is absent or when failure is
injected, otherwise appends the row. -/
def insertLogRow {σ : Type} (env : Env σ) (row : LogRow) (tx : DBState σ) :
    Except ApplyError (DBState σ) :=
  match tx.logTable with
  | none => .error (.recordFailed row.seq row.filename)
  | some rows =>
    if env.insertFails row then .error (.recordFailed row.seq row.filename)
    else .ok { tx with logTable := some (rows ++ [row]) }

/-- The application loop inlined in `Apply` (`open.go` lines 210–222): for
each pending update execute its SQL, then insert its log row; the first
failure aborts. Also returns the database interactions performed. -/
def runPending {σ : Type} (env : Env σ) :
    List Update → DBState σ → Except ApplyError (DBState σ) × List Event
  | [], tx => (.ok tx, [])
  | up :: ups, tx =>
    match env.exec tx.schema up.contents with
    | none => (.error (.applyFailed up.seq up.filename), [.execStmt up.contents])
    | some s1 =>
      match insertLogRow env (rowOf env up) { tx with schema := s1 } with
      | .error e => (.error e, [.execStmt up.contents, .insertRow (rowOf env up)])
      | .ok tx2 =>
        let rest := runPending env ups tx2
        (rest.1, .execStmt up.contents :: .insertRow (rowOf env up) :: rest.2)

/-- The standalone applicator `apply` of `apply.go`, whose loop is the same
code as the application loop inlined in `Apply`. -/
def apply {σ : Type} (env : Env σ) :
    List Update → DBState σ → Except ApplyError (DBState σ) × List Event
  | [], tx => (.ok tx, [])
  | up :: ups, tx =>
    match env.exec tx.schema up.contents with
    | none => (.error (.applyFailed up.seq up.filename), [.execStmt up.contents])
    | some s1 =>
      match insertLogRow env (rowOf env up) { tx with schema := s1 } with
      | .error e => (.error e, [.execStmt up.contents, .insertRow (rowOf env up)])
      | .ok tx2 =>
        let rest := apply env ups tx2
        (rest.1, .execStmt up.contents :: .insertRow (rowOf env up) :: rest.2)

/-! ### Top level (`Apply` in `open.go`) -/

/-- Steps of `Apply` inside the open transaction (`open.go` lines 164–222):
create the log table if missing, read the applied rows, reconcile them
against the available updates, then run the pending updates. -/
def applyTx {σ : Type} (env : Env σ) (avail : List Update) (db : DBState σ) :
    Except ApplyError (DBState σ) × List Event :=
  if env.createFails then (.error .createTableFailed, [.execCreate])
  else
    match queryLog env (createTable db) with
    | .error e => (.error e, [.execCreate, .selectLog])
    | .ok rows =>
      match reconcile avail rows with
      | .error e => (.error e, [.execCreate, .selectLog])
      | .ok pending =>
        let rest := runPending env pending (createTable db)
        (rest.1, .execCreate :: .selectLog :: rest.2)

/-- `Apply` (`open.go` lines 83–229): load the update set (no database
interaction), begin a transaction, run the transactional steps, commit on
success.  `defer tx.Rollback()` means every failure after `Begin` leaves the
database state as it was; the returned triple is (error, resulting database
state, interactions performed). -/
def Apply {σ : Type} (env : Env σ) (files : List FileEntry) (db : DBState σ) :
    Option ApplyError × DBState σ × List Event :=
  match loadUpdates env.hash files with
  | .error e => (some e, db, [])
  | .ok avail =>
    if env.beginFails then (some .beginFailed, db, [.txBegin])
    else
      match applyTx env avail db with
      | (.error e, evs) => (some e, db, .txBegin :: (evs ++ [.txRollback]))
      | (.ok txFinal, evs) =>
        if env.commitFails then
          (some .commitFailed, db, .txBegin :: (evs ++ [.txCommit, .txRollback]))
        else (none, txFinal, .txBegin :: (evs ++ [.txCommit]))

/-- Modelled from the spec: `ApplyUnsafe(handle, updateCollection) → error` is
named in the spec (public operations; design notes) but its definition is not
among the given source files.  Following the spec words, it loads the update
set exactly like `Apply`, then "skips reconciliation entirely and applies all
loaded updates unconditionally and in order" inside one transaction: no read
of the applied log, every loaded update executed and recorded. -/
def ApplyUnsafe {σ : Type} (env : Env σ) (files : List FileEntry) (db : DBState σ) :
    Option ApplyError × DBState σ × List Event :=
  match loadUpdates env.hash files with
  | .error e => (some e, db, [])
  | .ok avail =>
    if env.beginFails then (some .beginFailed, db, [.txBegin])
    else if env.createFails then
      (some .createTableFailed, db, [.txBegin, .execCreate, .txRollback])
    else
      match runPending env avail (createTable db) with
      | (.error e, evs) => (some e, db, .txBegin :: .execCreate :: (evs ++ [.txRollback]))
      | (.ok txFinal, evs) =>
        if env.commitFails then
          (some .commitFailed, db, .txBegin :: .execCreate :: (evs ++ [.txCommit, .txRollback]))
        else (none, txFinal, .txBegin :: .execCreate :: (evs ++ [.txCommit]))

/-! ### Spec-side predicates (from the claims' words) -/

/-- Some successive file's parsed number is not exactly one greater than the
previous one (on an already sorted list). -/
def hasGap : List FileEntry → Bool
  | f :: g :: t => decide (parseSeq g.name ≠ parseSeq f.name + 1) || hasGap (g :: t)
  | _ => false

/-- The claim's characterization of a malformed collection: empty, or an
entry is a directory, or a name fails the mask, or — after sorting by the
numerically parsed integer — the first number is not `1` or the numbers are
not contiguous. -/
def malformedB (files : List FileEntry) : Bool :=
  files.isEmpty
  || files.any (fun f => f.isDir)
  || files.any (fun f => !matchesMask f.name)
  || (match sortByKey fileKey files with
      | [] => false
      | f :: t => decide (parseSeq f.name ≠ 1) || hasGap (f :: t))

/-- The sequences of a list of updates are exactly `n, n+1, n+2, ...`. -/
def chainSeq : Nat → List Update → Bool
  | _, [] => true
  | n, u :: us => decide (u.seq = n) && chainSeq (n + 1) us

/-- Pointwise match between loaded updates and applied rows on `seq` and
`sha1` — the two columns the reconciliation compares. -/
inductive Matches : List Update → List LogRow → Prop
  | nil : Matches [] []
  | cons {u : Update} {r : LogRow} {us : List Update} {rs : List LogRow} :
      u.seq = r.seq → u.sha1 = r.sha1 → Matches us rs → Matches (u :: us) (r :: rs)

/-- Two applied logs that differ only in the filename values of their rows:
same length, and pointwise equal `seq`, `sha1`, `timestamp` and `contents`. -/
inductive RenamedRows : List LogRow → List LogRow → Prop
  | nil : RenamedRows [] []
  | cons {r r' : LogRow} {rs rs' : List LogRow} :
      r.seq = r'.seq → r.sha1 = r'.sha1 → r.timestamp = r'.timestamp →
      r.contents = r'.contents → RenamedRows rs rs' →
      RenamedRows (r :: rs) (r' :: rs')

/-- Whether an event is the execution of an update's SQL body. -/
def Event.isExec : Event → Bool
  | .execStmt _ => true
  | _ => false

/-! ### Concrete fixtures for witnesses -/

/-- Update file `1.sql` with body `A`. -/
def fsA : FileEntry := ⟨"1.sql", false, "A"⟩

/-- Update file `2.sql` with body `B`. -/
def fsB : FileEntry := ⟨"2.sql", false, "B"⟩

/-- Update file `3.sql` with body `C`. -/
def fsC : FileEntry := ⟨"3.sql", false, "C"⟩

/-- An environment over a trace-of-statements schema in which every database
call succeeds. -/
def envAllOk : Env (List String) :=
  { hash := fun s => s, exec := fun s c => some (s ++ [c]), now := fun _ => "t",
    beginFails := false, createFails := false, queryFails := false,
    insertFails := fun _ => false, commitFails := false }

/-- Like `envAllOk` except executing the SQL body `B` (the second update)
fails. -/
def envFailSecond : Env (List String) :=
  { envAllOk with exec := fun s c => if c = "B" then none else some (s ++ [c]) }

/-- A fresh database: no log table, empty schema. -/
def dbEmpty : DBState (List String) := ⟨none, []⟩

/-! ### Helper lemmas -/

theorem checkEntries_some_kind {fs : List FileEntry} {e : ApplyError} :
    checkEntries fs = some e → e.kind = .invalidFiles := by
  induction fs with
  | nil => intro h; simp [checkEntries] at h
  | cons f fs ih =>
    unfold checkEntries
    split
    · intro h; cases h; rfl
    · split
      · intro h; cases h; rfl
      · exact ih

theorem checkSeqFrom_some_kind {l : List FileEntry} {p : FileEntry} {e : ApplyError} :
    checkSeqFrom p l = some e → e.kind = .invalidFiles := by
  induction l generalizing p with
  | nil => intro h; simp [checkSeqFrom] at h
  | cons f fs ih =>
    unfold checkSeqFrom
    split
    · intro h; cases h; rfl
    · exact ih

theorem checkSeq_some_kind {l : List FileEntry} {e : ApplyError} :
    checkSeq l = some e → e.kind = .invalidFiles := by
  unfold checkSeq
  split
  · intro h; exact Option.noConfusion h
  · split
    · intro h; cases h; rfl
    · exact checkSeqFrom_some_kind

theorem loadUpdates_error_kind {h : String → String} {fs : List FileEntry}
    {e : ApplyError} : loadUpdates h fs = .error e → e.kind = .invalidFiles := by
  unfold loadUpdates
  split
  · intro he; cases he; rfl
  · split
    next e2 heq => intro he; cases he; exact checkEntries_some_kind heq
    next heq =>
      split
      next e2 heq2 => intro he; cases he; exact checkSeq_some_kind heq2
      next heq2 => intro he; cases he

theorem apply_error_state {σ : Type} {env : Env σ} {files : List FileEntry}
    {db : DBState σ} {e : ApplyError} :
    (Apply env files db).1 = some e → (Apply env files db).2.1 = db := by
  unfold Apply
  split
  · intro _; rfl
  · split
    · intro _; rfl
    · split
      · intro _; rfl
      · split
        · intro _; rfl
        · intro h; exact Option.noConfusion h

theorem apply_updateSchema_rollback {σ : Type} {env : Env σ} {files : List FileEntry}
    {db : DBState σ} {e : ApplyError} :
    (Apply env files db).1 = some e → e.kind = .updateSchema →
    (Apply env files db).2.2.getLast? = some .txRollback := by
  unfold Apply
  split
  next e2 heq =>
    intro h hk
    cases h
    rw [loadUpdates_error_kind heq] at hk
    cases hk
  next avail heq =>
    split
    · intro h hk
      cases h
      cases hk
    · split
      next e2 evs heq2 =>
        intro h hk
        show (Event.txBegin :: (evs ++ [Event.txRollback])).getLast? = _
        rw [← List.cons_append, List.getLast?_concat]
      next txF evs heq2 =>
        split
        · intro h hk
          show (Event.txBegin :: (evs ++ [Event.txCommit, Event.txRollback])).getLast? = _
          have h3 : Event.txBegin :: (evs ++ [Event.txCommit, Event.txRollback])
              = (Event.txBegin :: (evs ++ [Event.txCommit])) ++ [Event.txRollback] := by
            simp
          rw [h3, List.getLast?_concat]
        · intro h hk
          exact Option.noConfusion h

/-! ### Claim theorems -/

/-- C1: if any step after the transaction is opened fails during `Apply`
(creating the log table, reconciliation, executing a pending update's SQL,
inserting its log row, or commit — all the failures wrapped in
`UpdateSchemaError`), the transaction is rolled back before `Apply` returns
(the trace ends in a rollback) and the database state is unchanged, so no log
rows and no schema changes from any pending update persist.  The state is in
fact unchanged on every error return. -/
theorem apply_rolls_back_on_failure {σ : Type} (env : Env σ) (files : List FileEntry)
    (db : DBState σ) (e : ApplyError) (h : (Apply env files db).1 = some e) :
    (Apply env files db).2.1 = db
    ∧ (e.kind = .updateSchema →
        (Apply env files db).2.2.getLast? = some .txRollback) :=
  ⟨apply_error_state h, fun hk => apply_updateSchema_rollback h hk⟩

/-- Witness for C1: three pending updates whose second SQL body fails to
execute; `Apply` reports the failure and the database (no log rows, no schema
changes) is exactly the initial one. -/
theorem apply_rolls_back_on_failure_witness :
    (Apply envFailSecond [fsA, fsB, fsC] dbEmpty).1 = some (.applyFailed 2 "2.sql")
    ∧ (Apply envFailSecond [fsA, fsB, fsC] dbEmpty).2.1 = dbEmpty
    ∧ (Apply envFailSecond [fsA, fsB, fsC] dbEmpty).2.2.getLast? = some .txRollback :=
  ⟨by decide,
   (apply_rolls_back_on_failure envFailSecond [fsA, fsB, fsC] dbEmpty
      (.applyFailed 2 "2.sql") (by decide)).1,
   (apply_rolls_back_on_failure envFailSecond [fsA, fsB, fsC] dbEmpty
      (.applyFailed 2 "2.sql") (by decide)).2 (by decide)⟩

theorem insertByKey_length {α : Type} (key : α → Nat) (x : α) (l : List α) :
    (insertByKey key x l).length = l.length + 1 := by
  induction l with
  | nil => rfl
  | cons a t ih =>
    simp only [insertByKey]
    split
    · rfl
    · simp [ih]

theorem sortByKey_length {α : Type} (key : α → Nat) (l : List α) :
    (sortByKey key l).length = l.length := by
  induction l with
  | nil => rfl
  | cons x xs ih => simp [sortByKey, insertByKey_length, ih]

theorem sortBySeq_length (rows : List LogRow) :
    (sortBySeq rows).length = rows.length :=
  sortByKey_length _ rows

theorem reconcile_ok_drop {rows : List LogRow} {avail pending : List Update} :
    reconcile avail rows = .ok pending → pending = avail.drop rows.length := by
  induction rows generalizing avail with
  | nil => simp only [reconcile]; intro h; cases h; rfl
  | cons r rs ih =>
    cases avail with
    | nil => intro h; exact Except.noConfusion h
    | cons u us =>
      simp only [reconcile]
      split
      · intro h; exact Except.noConfusion h
      · split
        · intro h; exact Except.noConfusion h
        · intro h
          simpa using ih h

theorem filterWalk_ok_drop {ups : List Update} {rows : List LogRow}
    {rem0 rem : List Update} :
    filterWalk ups rows rem0 = .ok rem → rem = rem0.drop rows.length := by
  induction rows generalizing rem0 with
  | nil => simp only [filterWalk]; intro h; cases h; rfl
  | cons r rs ih =>
    cases rem0 with
    | nil =>
      simp only [filterWalk]
      split
      · intro h; exact FilterOut.noConfusion h
      · split
        · intro h; exact FilterOut.noConfusion h
        · split
          · intro h; exact FilterOut.noConfusion h
          · intro h; exact FilterOut.noConfusion h
    | cons x rem1 =>
      simp only [filterWalk]
      split
      · intro h; exact FilterOut.noConfusion h
      · split
        · intro h; exact FilterOut.noConfusion h
        · split
          · intro h; exact FilterOut.noConfusion h
          · intro h
            simpa using ih h

theorem renamed_insert {r r' : LogRow} {l l' : List LogRow}
    (h1 : r.seq = r'.seq) (h2 : r.sha1 = r'.sha1) (h3 : r.timestamp = r'.timestamp)
    (h4 : r.contents = r'.contents) (h : RenamedRows l l') :
    RenamedRows (insertByKey (fun a => a.seq) r l) (insertByKey (fun a => a.seq) r' l') := by
  induction h with
  | nil => exact .cons h1 h2 h3 h4 .nil
  | @cons a a' rs rs' g1 g2 g3 g4 g5 ih =>
    simp only [insertByKey]
    by_cases hc : r'.seq ≤ a'.seq
    · rw [if_pos (by rw [h1, g1]; exact hc), if_pos hc]
      exact .cons h1 h2 h3 h4 (.cons g1 g2 g3 g4 g5)
    · rw [if_neg (by rw [h1, g1]; exact hc), if_neg hc]
      exact .cons g1 g2 g3 g4 ih

theorem renamed_sort {l l' : List LogRow} (h : RenamedRows l l') :
    RenamedRows (sortBySeq l) (sortBySeq l') := by
  induction h with
  | nil => exact .nil
  | cons g1 g2 g3 g4 g5 ih =>
    simp only [sortBySeq, sortByKey] at ih ⊢
    exact renamed_insert g1 g2 g3 g4 ih

theorem reconcile_renamed {rows rows' : List LogRow} (avail : List Update)
    (h : RenamedRows rows rows') :
    reconcile avail rows = reconcile avail rows' := by
  induction h generalizing avail with
  | nil => rfl
  | @cons r r' rs rs' g1 g2 g3 g4 g5 ih =>
    cases avail with
    | nil => simp only [reconcile]; rw [g1]
    | cons u us =>
      simp only [reconcile]
      rw [g1, g2]
      by_cases hs : r'.seq ≠ u.seq
      · simp only [if_pos hs]
      · simp only [if_neg hs]
        by_cases hh : r'.sha1 ≠ u.sha1
        · simp only [if_pos hh]
        · simp only [if_neg hh]
          exact ih us

theorem filterWalk_renamed {rows rows' : List LogRow} (ups : List Update)
    (h : RenamedRows rows rows') :
    ∀ rem, filterWalk ups rows rem = filterWalk ups rows' rem := by
  induction h with
  | nil => intro rem; rfl
  | @cons r r' rs rs' g1 g2 g3 g4 g5 ih =>
    intro rem
    cases ups with
    | nil => simp only [filterWalk]; rw [g1]
    | cons u us =>
      simp only [filterWalk]
      rw [g1, g2]
      by_cases hs : r'.seq ≠ u.seq
      · simp only [if_pos hs]
      · simp only [if_neg hs]
        by_cases hh : r'.sha1 ≠ u.sha1
        · simp only [if_pos hh]
        · simp only [if_neg hh]
          cases rem with
          | nil => rfl
          | cons x rem1 => exact ih rem1

/-- The standalone loader `updates` of `filter.go` is the same function as
the loading phase inlined in `Apply` — the two code bodies are identical. -/
theorem updates_eq_loadUpdates : @updates = @loadUpdates := rfl

/-- The standalone applicator `apply` of `apply.go` is the same function as
the application loop inlined in `Apply` — the two code bodies are identical. -/
theorem apply_eq_runPending {σ : Type} (env : Env σ) (ups : List Update) (tx : DBState σ) :
    apply env ups tx = runPending env ups tx := by
  induction ups generalizing tx with
  | nil => rfl
  | cons up t ih => simp only [apply, runPending, ih]

/-- C4: reconciliation that succeeds with an applied log of `k` entries
returns exactly the loaded list with its first `k` elements dropped, in
order — for the phase inlined in `Apply` (`reconcile`) and for the
standalone `filter` reading `k` rows from the log table. -/
theorem reconcile_returns_dropped_suffix {σ : Type} (env : Env σ)
    (avail ups : List Update) (rows rws : List LogRow) (s : σ) :
    (∀ pending, reconcile avail rows = .ok pending → pending = avail.drop rows.length)
    ∧ (∀ rem, filter env ups ⟨some rws, s⟩ = .ok rem → rem = ups.drop rws.length) := by
  constructor
  · intro pending h
    exact reconcile_ok_drop h
  · intro rem h
    simp only [filter, queryLog] at h
    by_cases hq : env.queryFails = true
    · rw [if_pos hq] at h
      exact FilterOut.noConfusion h
    · rw [if_neg hq] at h
      have h2 := filterWalk_ok_drop h
      rwa [sortBySeq_length] at h2

/-- Witness for C4: one applied row consumes exactly the first of two loaded
updates in both reconcilers. -/
theorem reconcile_returns_dropped_suffix_witness :
    (([⟨"2.sql", 2, "B", "", "B"⟩] : List Update)
      = [(⟨"1.sql", 1, "A", "", "A"⟩ : Update), ⟨"2.sql", 2, "B", "", "B"⟩].drop 1)
    ∧ (([⟨"2.sql", 2, "B", "", "B"⟩] : List Update)
      = [(⟨"1.sql", 1, "A", "", "A"⟩ : Update), ⟨"2.sql", 2, "B", "", "B"⟩].drop 1) :=
  ⟨(reconcile_returns_dropped_suffix envAllOk
      [⟨"1.sql", 1, "A", "", "A"⟩, ⟨"2.sql", 2, "B", "", "B"⟩] []
      [⟨"1.sql", 1, "A", "t", "A"⟩] [] []).1 [⟨"2.sql", 2, "B", "", "B"⟩] rfl,
   (reconcile_returns_dropped_suffix envAllOk []
      [⟨"1.sql", 1, "A", "", "A"⟩, ⟨"2.sql", 2, "B", "", "B"⟩] []
      [⟨"1.sql", 1, "A", "t", "A"⟩] []).2 [⟨"2.sql", 2, "B", "", "B"⟩] rfl⟩

/-- C6: on a database where the applied-log table does not exist, `Apply`'s
transactional steps treat the applied set as empty (the table is created
empty before the read), so reconciliation succeeds and the entire loaded
list is pending: the run proceeds to apply all of it. -/
theorem missing_table_treated_as_first_run {σ : Type} (env : Env σ)
    (avail : List Update) (db : DBState σ) (hnone : db.logTable = none)
    (hc : env.createFails = false) (hq : env.queryFails = false) :
    applyTx env avail db =
      ((runPending env avail (createTable db)).1,
        .execCreate :: .selectLog :: (runPending env avail (createTable db)).2) := by
  unfold applyTx
  rw [hc]
  simp only [Bool.false_eq_true, if_false]
  have h1 : queryLog env (createTable db) = .ok [] := by
    simp only [queryLog, createTable, hnone]
    rw [hq]
    simp [sortBySeq, sortByKey]
  rw [h1]
  simp only [reconcile]

/-- Witness for C6: a fresh database and a single loaded update. -/
theorem missing_table_treated_as_first_run_witness :
    applyTx envAllOk [⟨"1.sql", 1, "A", "", "A"⟩] dbEmpty =
      ((runPending envAllOk [⟨"1.sql", 1, "A", "", "A"⟩] (createTable dbEmpty)).1,
        .execCreate :: .selectLog ::
          (runPending envAllOk [⟨"1.sql", 1, "A", "", "A"⟩] (createTable dbEmpty)).2) :=
  missing_table_treated_as_first_run envAllOk [⟨"1.sql", 1, "A", "", "A"⟩] dbEmpty
    rfl rfl rfl

/-- C9: reconciliation never consults the filename of an applied-log row:
two applied logs that differ only in filename values yield identical results
both in the phase inlined in `Apply` (sorted read + `reconcile`) and in the
standalone `filter`. -/
theorem reconciliation_ignores_filenames {σ : Type} (env : Env σ)
    (avail ups : List Update) (s : σ) (rows rows' : List LogRow)
    (h : RenamedRows rows rows') :
    reconcile avail (sortBySeq rows) = reconcile avail (sortBySeq rows')
    ∧ filter env ups ⟨some rows, s⟩ = filter env ups ⟨some rows', s⟩ := by
  have hs := renamed_sort h
  refine ⟨reconcile_renamed avail hs, ?_⟩
  simp only [filter, queryLog]
  by_cases hq : env.queryFails = true
  · simp only [if_pos hq]
  · simp only [if_neg hq]
    exact filterWalk_renamed ups hs ups

/-- Witness for C9: an applied row renamed from `1.sql` to `01.sql` (same
sequence, checksum, timestamp and contents) is reconciled identically. -/
theorem reconciliation_ignores_filenames_witness :
    (reconcile [⟨"1.sql", 1, "A", "", "A"⟩] (sortBySeq [⟨"1.sql", 1, "A", "t", "A"⟩])
      = reconcile [⟨"1.sql", 1, "A", "", "A"⟩] (sortBySeq [⟨"01.sql", 1, "A", "t", "A"⟩]))
    ∧ (filter envAllOk [⟨"1.sql", 1, "A", "", "A"⟩] ⟨some [⟨"1.sql", 1, "A", "t", "A"⟩], []⟩
      = filter envAllOk [⟨"1.sql", 1, "A", "", "A"⟩] ⟨some [⟨"01.sql", 1, "A", "t", "A"⟩], []⟩) :=
  reconciliation_ignores_filenames envAllOk [⟨"1.sql", 1, "A", "", "A"⟩]
    [⟨"1.sql", 1, "A", "", "A"⟩] [] [⟨"1.sql", 1, "A", "t", "A"⟩]
    [⟨"01.sql", 1, "A", "t", "A"⟩] (.cons rfl rfl rfl rfl .nil)

/-- C10 (divergence): on two loaded updates both already applied and logged,
the reconciliation phase of `Apply` returns an empty pending list, but the
standalone `filter` — whose walk always compares against `updates[0]` —
fails with a sequence-mismatch error on the second applied row. -/
theorem filter_diverges_from_apply_phase :
    reconcile [⟨"1.sql", 1, "hA", "", "A"⟩, ⟨"2.sql", 2, "hB", "", "B"⟩]
        [⟨"1.sql", 1, "hA", "t", "A"⟩, ⟨"2.sql", 2, "hB", "t", "B"⟩] = .ok []
    ∧ filter envAllOk [⟨"1.sql", 1, "hA", "", "A"⟩, ⟨"2.sql", 2, "hB", "", "B"⟩]
        ⟨some [⟨"1.sql", 1, "hA", "t", "A"⟩, ⟨"2.sql", 2, "hB", "t", "B"⟩], []⟩
      = .err (.seqMismatch 2 1) :=
  ⟨rfl, rfl⟩

theorem checkEntries_none_iff {fs : List FileEntry} :
    checkEntries fs = none ↔ ∀ f ∈ fs, f.isDir = false ∧ matchesMask f.name = true := by
  induction fs with
  | nil => simp [checkEntries]
  | cons f fs ih =>
    simp only [checkEntries, List.mem_cons]
    by_cases hd : f.isDir
    · simp [hd]
    · by_cases hm : matchesMask f.name
      · simp only [hd, Bool.false_eq_true, if_false, hm, Bool.not_true, if_false, ih]
        constructor
        · intro h x hx
          cases hx with
          | inl hx => subst hx; exact ⟨by simpa using hd, hm⟩
          | inr hx => exact h x hx
        · intro h x hx
          exact h x (Or.inr hx)
      · simp only [hd, Bool.false_eq_true, if_false, hm, Bool.not_false, if_true]
        constructor
        · intro h; exact Option.noConfusion h
        · intro h
          exact absurd (h f (Or.inl rfl)).2 hm

theorem checkSeqFrom_none_iff {l : List FileEntry} {p : FileEntry} :
    checkSeqFrom p l = none ↔ hasGap (p :: l) = false := by
  induction l generalizing p with
  | nil => simp [checkSeqFrom, hasGap]
  | cons f fs ih =>
    simp only [checkSeqFrom, hasGap]
    by_cases hg : parseSeq f.name - parseSeq p.name ≠ 1
    · have hg2 : parseSeq f.name ≠ parseSeq p.name + 1 := by omega
      simp [hg, hg2]
    · have hg2 : parseSeq f.name = parseSeq p.name + 1 := by omega
      simp [hg, hg2, ih]

theorem checkSeq_none_iff_cons {f : FileEntry} {t : List FileEntry} :
    checkSeq (f :: t) = none ↔ (parseSeq f.name = 1 ∧ hasGap (f :: t) = false) := by
  simp only [checkSeq]
  by_cases h1 : parseSeq f.name ≠ 1
  · simp [h1]
  · have h2 : parseSeq f.name = 1 := by omega
    simp [h1, h2, checkSeqFrom_none_iff]

theorem sortByKey_ne_nil {α : Type} {key : α → Nat} {l : List α} (h : l ≠ []) :
    sortByKey key l ≠ [] := by
  intro h2
  apply h
  have h3 := sortByKey_length key l
  rw [h2] at h3
  exact List.length_eq_zero.mp h3.symm

theorem checkSeqFrom_chain (hash : String → String) {t : List FileEntry} {p : FileEntry} :
    checkSeqFrom p t = none →
    chainSeq (parseSeq p.name + 1) (buildUpdates hash t) = true := by
  induction t generalizing p with
  | nil => intro _; rfl
  | cons f fs ih =>
    simp only [checkSeqFrom]
    by_cases hg : parseSeq f.name - parseSeq p.name ≠ 1
    · simp [hg]
    · rw [if_neg hg]
      intro h
      have h2 : parseSeq f.name = parseSeq p.name + 1 := by omega
      simp only [buildUpdates, List.map_cons] at ih ⊢
      simp only [chainSeq, Bool.and_eq_true, decide_eq_true_eq]
      refine ⟨h2, ?_⟩
      have h3 := ih h
      rw [h2] at h3
      exact h3

theorem chainSeq_range {l : List Update} {n : Nat} :
    chainSeq n l = true → l.map Update.seq = List.range' n l.length := by
  induction l generalizing n with
  | nil => intro _; rfl
  | cons u us ih =>
    simp only [chainSeq, Bool.and_eq_true, decide_eq_true_eq]
    intro h
    simp only [List.map_cons, List.length_cons, List.range'_succ]
    rw [h.1, ih h.2]

theorem loadUpdates_error_iff {hash : String → String} {fs : List FileEntry} :
    (∃ e, loadUpdates hash fs = .error e) ↔ malformedB fs = true := by
  by_cases h0 : fs.length < 1
  · have hfs : fs = [] := List.length_eq_zero.mp (by omega)
    subst hfs
    simp [loadUpdates, malformedB]
  · have h0' : fs ≠ [] := by
      intro hh
      subst hh
      simp at h0
    have h0l : ¬ fs.length < 1 := h0
    cases hce : checkEntries fs with
    | some e =>
      have hbad : ¬ ∀ f ∈ fs, f.isDir = false ∧ matchesMask f.name = true := by
        rw [← checkEntries_none_iff, hce]
        simp
      constructor
      · intro _
        push_neg at hbad
        obtain ⟨f, hf, hprop⟩ := hbad
        simp only [malformedB, Bool.or_eq_true, List.any_eq_true]
        by_cases hd : f.isDir = true
        · exact Or.inl (Or.inl (Or.inr ⟨f, hf, hd⟩))
        · refine Or.inl (Or.inr ⟨f, hf, ?_⟩)
          have := hprop (by simpa using hd)
          simpa using this
      · intro _
        refine ⟨e, ?_⟩
        unfold loadUpdates
        rw [if_neg h0l, hce]
    | none =>
      have hgood := checkEntries_none_iff.mp hce
      have hany1 : fs.any (fun f => f.isDir) = false := by
        simp only [List.any_eq_false]
        intro f hf
        simp [(hgood f hf).1]
      have hany2 : fs.any (fun f => !matchesMask f.name) = false := by
        simp only [List.any_eq_false]
        intro f hf
        simp [(hgood f hf).2]
      obtain ⟨f, t, hsort⟩ : ∃ f t, sortByKey fileKey fs = f :: t := by
        cases hs : sortByKey fileKey fs with
        | nil => exact absurd hs (sortByKey_ne_nil h0')
        | cons f t => exact ⟨f, t, rfl⟩
      have hempty : fs.isEmpty = false := by
        cases fs with
        | nil => exact absurd rfl h0'
        | cons a b => rfl
      cases hcs : checkSeq (sortByKey fileKey fs) with
      | some e =>
        constructor
        · intro _
          have hne : ¬ (parseSeq f.name = 1 ∧ hasGap (f :: t) = false) := by
            rw [← checkSeq_none_iff_cons, ← hsort, hcs]
            simp
          simp only [malformedB, hempty, hany1, hany2, hsort, Bool.or_eq_true,
            Bool.false_eq_true, false_or, or_false]
          by_cases hp1 : parseSeq f.name = 1
          · have hg : hasGap (f :: t) = true := by
              cases hg2 : hasGap (f :: t) with
              | false => exact absurd ⟨hp1, hg2⟩ hne
              | true => rfl
            exact Or.inr hg
          · exact Or.inl (by simpa using hp1)
        · intro _
          refine ⟨e, ?_⟩
          unfold loadUpdates
          rw [if_neg h0l, hce, hcs]
      | none =>
        have hok := checkSeq_none_iff_cons.mp (by rw [← hsort]; exact hcs)
        constructor
        · intro ⟨e, he⟩
          unfold loadUpdates at he
          rw [if_neg h0l, hce, hcs] at he
          exact Except.noConfusion he
        · intro hm
          simp only [malformedB, hempty, hany1, hany2, hsort, Bool.or_eq_true,
            Bool.false_eq_true, false_or, or_false] at hm
          rcases hm with h | h
          · rw [decide_eq_true_eq] at h
            exact absurd hok.1 h
          · rw [hok.2] at h
            exact Bool.noConfusion h

theorem loadUpdates_ok_parts {hash : String → String} {fs : List FileEntry}
    {l : List Update} :
    loadUpdates hash fs = .ok l → chainSeq 1 l = true ∧ l.length = fs.length := by
  unfold loadUpdates
  split
  · intro h; exact Except.noConfusion h
  · split
    · intro h; exact Except.noConfusion h
    · split
      · intro h; exact Except.noConfusion h
      next heq0 heq =>
        intro h
        cases h
        constructor
        · cases hs : sortByKey fileKey fs with
          | nil => rfl
          | cons f t =>
            rw [hs] at heq
            have hp := checkSeq_none_iff_cons.mp heq
            have hfrom : checkSeqFrom f t = none := checkSeqFrom_none_iff.mpr hp.2
            have hc := checkSeqFrom_chain hash hfrom
            rw [hp.1] at hc
            simp only [buildUpdates, List.map_cons, chainSeq, Bool.and_eq_true,
              decide_eq_true_eq]
            exact ⟨hp.1, hc⟩
        · simp [buildUpdates, sortByKey_length]

/-- C3: the loader fails with an `InvalidUpdateFiles` error exactly when the
collection is empty, has a directory entry, has a name not matching
`^[0-9]+\.sql$`, or — after sorting by the numerically parsed integer — does
not start at `1` or has a non-contiguous step; otherwise it returns one
update per file, ordered so that the sequences are exactly `1..N`. -/
theorem loader_invalid_iff_malformed (hash : String → String) (fs : List FileEntry) :
    ((∃ e, loadUpdates hash fs = .error e ∧ e.kind = .invalidFiles)
      ↔ malformedB fs = true)
    ∧ (∀ l, loadUpdates hash fs = .ok l →
        l.map Update.seq = List.range' 1 l.length ∧ l.length = fs.length) := by
  constructor
  · constructor
    · intro ⟨e, he, _⟩
      exact loadUpdates_error_iff.mp ⟨e, he⟩
    · intro hm
      obtain ⟨e, he⟩ := loadUpdates_error_iff.mpr hm
      exact ⟨e, he, loadUpdates_error_kind he⟩
  · intro l hl
    have hp := loadUpdates_ok_parts hl
    exact ⟨chainSeq_range hp.1, hp.2⟩

/-- Witness for C3: a collection missing `1.sql` is malformed and rejected
with an `InvalidUpdateFiles`-kind error; the valid collection `1.sql, 2.sql,
3.sql` loads with sequences exactly `1, 2, 3`. -/
theorem loader_invalid_iff_malformed_witness :
    (∃ e, loadUpdates (fun s => s) [fsB] = .error e ∧ e.kind = .invalidFiles)
    ∧ ((buildUpdates (fun s => s)
          (sortByKey fileKey [fsA, fsB, fsC])).map Update.seq
        = List.range' 1 3) :=
  ⟨((loader_invalid_iff_malformed (fun s => s) [fsB]).1).mpr rfl,
   ((loader_invalid_iff_malformed (fun s => s) [fsA, fsB, fsC]).2
      (buildUpdates (fun s => s) (sortByKey fileKey [fsA, fsB, fsC])) rfl).1⟩

/-- C7: on a malformed file collection, `Apply` fails with an
`InvalidUpdateFiles`-kind error before any database interaction: its trace of
database events is empty (no transaction begun, no statement executed) and
the database is returned untouched. -/
theorem invalid_files_no_db_interaction {σ : Type} (env : Env σ)
    (files : List FileEntry) (db : DBState σ) (h : malformedB files = true) :
    ∃ e, Apply env files db = (some e, db, []) ∧ e.kind = .invalidFiles := by
  obtain ⟨e, he⟩ := loadUpdates_error_iff.mpr h
  refine ⟨e, ?_, loadUpdates_error_kind he⟩
  unfold Apply
  rw [he]

/-- Witness for C7: a collection whose only file is `2.sql` (missing start). -/
theorem invalid_files_no_db_interaction_witness :
    ∃ e, Apply envAllOk [fsB] dbEmpty = (some e, dbEmpty, []) ∧ e.kind = .invalidFiles :=
  invalid_files_no_db_interaction envAllOk [fsB] dbEmpty rfl

theorem reconcile_sha_err {rows : List LogRow} {avail : List Update} {i : Nat}
    (hi : i < rows.length) (hi' : i < avail.length)
    (hsha : (rows.get ⟨i, hi⟩).sha1 ≠ (avail.get ⟨i, hi'⟩).sha1) :
    ∃ e, reconcile avail rows = .error e ∧ e.kind = .updateSchema := by
  induction rows generalizing avail i with
  | nil => exact absurd hi (by simp)
  | cons r rs ih =>
    cases avail with
    | nil => exact absurd hi' (by simp)
    | cons u us =>
      simp only [reconcile]
      by_cases h1 : r.seq ≠ u.seq
      · rw [if_pos h1]
        exact ⟨_, rfl, rfl⟩
      · rw [if_neg h1]
        by_cases h2 : r.sha1 ≠ u.sha1
        · rw [if_pos h2]
          exact ⟨_, rfl, rfl⟩
        · rw [if_neg h2]
          cases i with
          | zero =>
            simp only [List.get] at hsha
            exact absurd hsha (by simpa using h2)
          | succ n =>
            exact ih (Nat.lt_of_succ_lt_succ hi) (Nat.lt_of_succ_lt_succ hi') hsha

/-- C5: when the applied log holds a row whose checksum differs from the
loaded update at the same position of the ascending-sequence read, `Apply`
fails with an `UpdateSchemaError`-kind error (the mismatched update is never
re-applied) and the database is left unchanged. -/
theorem checksum_mismatch_fails_unchanged {σ : Type} (env : Env σ)
    (files : List FileEntry) (db : DBState σ) (avail : List Update) (i : Nat)
    (hload : loadUpdates env.hash files = .ok avail)
    (hb : env.beginFails = false)
    (hi : i < (sortBySeq (db.logTable.getD [])).length)
    (hi' : i < avail.length)
    (hsha : ((sortBySeq (db.logTable.getD [])).get ⟨i, hi⟩).sha1
      ≠ (avail.get ⟨i, hi'⟩).sha1) :
    ∃ e, (Apply env files db).1 = some e ∧ e.kind = .updateSchema
      ∧ (Apply env files db).2.1 = db := by
  have htx : ∃ e, (applyTx env avail db).1 = .error e
      ∧ ApplyError.kind e = .updateSchema := by
    unfold applyTx
    by_cases hc : env.createFails = true
    · rw [if_pos hc]
      exact ⟨_, rfl, rfl⟩
    · rw [if_neg hc]
      unfold queryLog createTable
      dsimp only
      by_cases hq : env.queryFails = true
      · rw [if_pos hq]
        exact ⟨_, rfl, rfl⟩
      · rw [if_neg hq]
        obtain ⟨e, he, hk⟩ := reconcile_sha_err hi hi' hsha
        refine ⟨e, ?_, hk⟩
        simp only [he]
  obtain ⟨e, he, hk⟩ := htx
  have h1 : (Apply env files db).1 = some e ∧ (Apply env files db).2.1 = db := by
    unfold Apply
    simp only [hload, hb, Bool.false_eq_true, if_false]
    cases hap : applyTx env avail db with
    | mk res evs =>
      cases res with
      | error e2 =>
        rw [hap] at he
        cases he
        exact ⟨rfl, rfl⟩
      | ok tx =>
        rw [hap] at he
        exact Except.noConfusion he
  exact ⟨e, h1.1, hk, h1.2⟩

/-- Witness for C5: the log row for sequence 1 carries checksum `X` while the
loaded `1.sql` hashes to `A`; `Apply` fails with an `UpdateSchemaError`-kind
error and the database equals the initial one. -/
theorem checksum_mismatch_fails_unchanged_witness :
    ∃ e, (Apply envAllOk [fsA] ⟨some [⟨"1.sql", 1, "X", "t", "A"⟩], []⟩).1 = some e
      ∧ e.kind = .updateSchema
      ∧ (Apply envAllOk [fsA] ⟨some [⟨"1.sql", 1, "X", "t", "A"⟩], []⟩).2.1
          = ⟨some [⟨"1.sql", 1, "X", "t", "A"⟩], []⟩ :=
  checksum_mismatch_fails_unchanged envAllOk [fsA]
    ⟨some [⟨"1.sql", 1, "X", "t", "A"⟩], []⟩ [⟨"1.sql", 1, "A", "", "A"⟩] 0
    rfl rfl (by decide) (by decide) (by decide)

theorem Matches.length_eq {xs : List Update} {rows : List LogRow}
    (h : Matches xs rows) : xs.length = rows.length := by
  induction h with
  | nil => rfl
  | cons h1 h2 h3 ih => simp [ih]

theorem reconcile_ok_split {rows : List LogRow} {avail pending : List Update} :
    reconcile avail rows = .ok pending →
    ∃ xs, avail = xs ++ pending ∧ Matches xs rows := by
  induction rows generalizing avail with
  | nil =>
    simp only [reconcile]
    intro h
    cases h
    exact ⟨[], rfl, .nil⟩
  | cons r rs ih =>
    cases avail with
    | nil => intro h; exact Except.noConfusion h
    | cons u us =>
      simp only [reconcile]
      by_cases h1 : r.seq ≠ u.seq
      · rw [if_pos h1]; intro h; exact Except.noConfusion h
      · rw [if_neg h1]
        by_cases h2 : r.sha1 ≠ u.sha1
        · rw [if_pos h2]; intro h; exact Except.noConfusion h
        · rw [if_neg h2]
          intro h
          obtain ⟨xs, hsplit, hm⟩ := ih h
          refine ⟨u :: xs, ?_, ?_⟩
          · rw [List.cons_append, ← hsplit]
          · exact .cons (by omega) (not_not.mp h2).symm hm

theorem matches_rowOf {σ : Type} (env : Env σ) (ups : List Update) :
    Matches ups (ups.map (rowOf env)) := by
  induction ups with
  | nil => exact .nil
  | cons u us ih => exact .cons rfl rfl ih

theorem reconcile_append {xs : List Update} {rows : List LogRow}
    (hm : Matches xs rows) (ys : List Update) (rows2 : List LogRow) :
    reconcile (xs ++ ys) (rows ++ rows2) = reconcile ys rows2 := by
  induction hm with
  | nil => rfl
  | @cons u r us rs h1 h2 h3 ih =>
    simp only [List.cons_append, reconcile]
    rw [if_neg (by omega), if_neg (by simp [h2])]
    exact ih

theorem matches_mem_row {xs : List Update} {rows : List LogRow}
    (hm : Matches xs rows) : ∀ r ∈ rows, ∃ u ∈ xs, u.seq = r.seq := by
  induction hm with
  | nil => intro r hr; exact absurd hr (by simp)
  | @cons u r0 us rs h1 h2 h3 ih =>
    intro r hr
    cases hr with
    | head => exact ⟨u, by simp, h1⟩
    | tail _ hr =>
      obtain ⟨v, hv, hs⟩ := ih r hr
      exact ⟨v, by simp [hv], hs⟩

theorem mem_insertByKey {α : Type} {key : α → Nat} {x a : α} {l : List α} :
    a ∈ insertByKey key x l ↔ a = x ∨ a ∈ l := by
  induction l with
  | nil => simp [insertByKey]
  | cons b t ih =>
    simp only [insertByKey]
    split
    · simp only [List.mem_cons]
    · simp only [List.mem_cons, ih]
      tauto

theorem mem_sortByKey {α : Type} {key : α → Nat} {a : α} {l : List α} :
    a ∈ sortByKey key l ↔ a ∈ l := by
  induction l with
  | nil => simp [sortByKey]
  | cons x xs ih =>
    simp only [sortByKey, mem_insertByKey, ih, List.mem_cons]

theorem insertByKey_append_of_lt {α : Type} {key : α → Nat} {x : α} {ys : List α}
    (h : ∀ y ∈ ys, key x < key y) (l : List α) :
    insertByKey key x (l ++ ys) = insertByKey key x l ++ ys := by
  induction l with
  | nil =>
    cases ys with
    | nil => rfl
    | cons y t =>
      simp only [List.nil_append, insertByKey]
      rw [if_pos (Nat.le_of_lt (h y (by simp)))]
      rfl
  | cons a t ih =>
    simp only [List.cons_append, insertByKey, List.append_eq]
    split
    · rfl
    · rw [ih]
      rfl

theorem sortByKey_eq_self_of_chain {α : Type} {key : α → Nat} {l : List α}
    (h : List.Chain' (fun a b => key a ≤ key b) l) : sortByKey key l = l := by
  induction l with
  | nil => rfl
  | cons x xs ih =>
    simp only [sortByKey]
    rw [ih h.tail]
    cases xs with
    | nil => rfl
    | cons y t =>
      simp only [insertByKey]
      rw [if_pos (List.chain'_cons.mp h).1]

theorem sortByKey_append_of_lt {α : Type} {key : α → Nat} {xs ys : List α}
    (h : ∀ a ∈ xs, ∀ b ∈ ys, key a < key b)
    (hys : List.Chain' (fun a b => key a ≤ key b) ys) :
    sortByKey key (xs ++ ys) = sortByKey key xs ++ ys := by
  induction xs with
  | nil => exact sortByKey_eq_self_of_chain hys
  | cons x xs ih =>
    simp only [List.cons_append, sortByKey, List.append_eq]
    rw [ih (fun a ha b hb => h a (by simp [ha]) b hb)]
    exact insertByKey_append_of_lt (fun y hy => h x (by simp) y hy) _

theorem chainSeq_append {xs ys : List Update} {n : Nat} :
    chainSeq n (xs ++ ys) = (chainSeq n xs && chainSeq (n + xs.length) ys) := by
  induction xs generalizing n with
  | nil => simp [chainSeq]
  | cons u us ih =>
    simp only [List.cons_append, chainSeq, List.append_eq, ih, List.length_cons,
      Bool.and_assoc]
    have h2 : n + (us.length + 1) = n + 1 + us.length := by omega
    rw [h2]

theorem chainSeq_mem_bounds {l : List Update} {n : Nat} (h : chainSeq n l = true) :
    ∀ u ∈ l, n ≤ u.seq ∧ u.seq < n + l.length := by
  induction l generalizing n with
  | nil => intro u hu; exact absurd hu (by simp)
  | cons v vs ih =>
    simp only [chainSeq, Bool.and_eq_true, decide_eq_true_eq] at h
    intro u hu
    cases hu with
    | head => simp only [List.length_cons]; omega
    | tail _ hu =>
      have := ih h.2 u hu
      simp only [List.length_cons]
      omega

theorem chainSeq_chain_le {l : List Update} {n : Nat} (h : chainSeq n l = true) :
    List.Chain' (fun a b => a.seq ≤ b.seq) l := by
  induction l generalizing n with
  | nil => exact List.chain'_nil
  | cons u us ih =>
    simp only [chainSeq, Bool.and_eq_true, decide_eq_true_eq] at h
    cases us with
    | nil => simp
    | cons v vs =>
      have h2 := h.2
      simp only [chainSeq, Bool.and_eq_true, decide_eq_true_eq] at h2
      rw [List.chain'_cons]
      exact ⟨by omega, ih h.2⟩

theorem createTable_of_some {σ : Type} {db : DBState σ} {l : List LogRow}
    (h : db.logTable = some l) : createTable db = db := by
  cases db with
  | mk lt s =>
    simp only at h
    cases h
    rfl

theorem runPending_ok_log {σ : Type} {env : Env σ} {ups : List Update}
    {tx tx2 : DBState σ} {l : List LogRow} :
    tx.logTable = some l → (runPending env ups tx).1 = .ok tx2 →
    tx2.logTable = some (l ++ ups.map (rowOf env)) := by
  induction ups generalizing tx l with
  | nil =>
    intro hl h
    cases h
    simpa using hl
  | cons up t ih =>
    intro hl h
    simp only [runPending] at h
    cases hexec : env.exec tx.schema up.contents with
    | none => simp only [hexec] at h; exact Except.noConfusion h
    | some s1 =>
      simp only [hexec] at h
      cases hins : insertLogRow env (rowOf env up) { tx with schema := s1 } with
      | error e => simp only [hins] at h; exact Except.noConfusion h
      | ok tx3 =>
        simp only [hins] at h
        have hl3 : tx3.logTable = some (l ++ [rowOf env up]) := by
          simp only [insertLogRow, hl] at hins
          by_cases hf : env.insertFails (rowOf env up) = true
          · rw [if_pos hf] at hins
            exact Except.noConfusion hins
          · rw [if_neg hf] at hins
            cases hins
            rfl
        have h3 := ih hl3 h
        rw [h3, List.append_assoc]
        rfl

theorem reconcile_all_applied {σ : Type} (env : Env σ) (ups : List Update) :
    reconcile ups (ups.map (rowOf env)) = .ok [] := by
  have h := reconcile_append (matches_rowOf env ups) [] []
  simpa [reconcile] using h

theorem Apply_ok_inv {σ : Type} {env : Env σ} {files : List FileEntry}
    {db db' : DBState σ} {tr : List Event} :
    Apply env files db = (none, db', tr) →
    ∃ avail evs, loadUpdates env.hash files = .ok avail
      ∧ env.beginFails = false ∧ env.commitFails = false
      ∧ applyTx env avail db = (.ok db', evs)
      ∧ tr = .txBegin :: (evs ++ [.txCommit]) := by
  unfold Apply
  split
  · intro h; simp at h
  next avail heq =>
    split
    · intro h; simp at h
    next hb =>
      split
      next e evs heq2 => intro h; simp at h
      next txF evs heq2 =>
        split
        · intro h; simp at h
        next hcm =>
          intro h
          simp only [Prod.mk.injEq] at h
          refine ⟨avail, evs, heq, by simpa using hb, by simpa using hcm, ?_, ?_⟩
          · rw [heq2, h.2.1]
          · exact h.2.2.symm

theorem applyTx_ok_inv {σ : Type} {env : Env σ} {avail : List Update}
    {db tx2 : DBState σ} {evs : List Event} :
    applyTx env avail db = (.ok tx2, evs) →
    env.createFails = false ∧ env.queryFails = false
    ∧ ∃ pending, reconcile avail (sortBySeq (db.logTable.getD [])) = .ok pending
      ∧ (runPending env pending (createTable db)).1 = .ok tx2 := by
  unfold applyTx
  split
  · intro h; simp at h
  next hc =>
    split
    next e heq => intro h; simp at h
    next rows heq =>
      split
      next e heq2 => intro h; simp at h
      next pending heq2 =>
        intro h
        simp only [Prod.mk.injEq] at h
        have hqf : env.queryFails = false
            ∧ rows = sortBySeq (db.logTable.getD []) := by
          simp only [queryLog, createTable] at heq
          by_cases hq : env.queryFails = true
          · rw [if_pos hq] at heq
            exact Except.noConfusion heq
          · rw [if_neg hq] at heq
            cases heq
            exact ⟨by simpa using hq, rfl⟩
        refine ⟨by simpa using hc, hqf.1, pending, ?_, ?_⟩
        · rw [← hqf.2]
          exact heq2
        · exact h.1

/-- C2: applying the same collection twice is idempotent: when the first
`Apply` succeeds, the second run finds every loaded update already recorded,
reconciles to an empty pending list, executes zero update statement bodies
(its whole trace is begin / create-if-absent / select / commit) and returns
no error, leaving the database state equal to the first run's result. -/
theorem apply_idempotent {σ : Type} (env : Env σ) (files : List FileEntry)
    (db db' : DBState σ) (tr : List Event)
    (h : Apply env files db = (none, db', tr)) :
    Apply env files db'
      = (none, db', [.txBegin, .execCreate, .selectLog, .txCommit]) := by
  obtain ⟨avail, evs, hload, hb, hcm, htx, htr⟩ := Apply_ok_inv h
  obtain ⟨hc, hq, pending, hrec, hrun⟩ := applyTx_ok_inv htx
  obtain ⟨xs, hsplit, hm⟩ := reconcile_ok_split hrec
  have hchain : chainSeq 1 avail = true := (loadUpdates_ok_parts hload).1
  have hlog' : db'.logTable
      = some (db.logTable.getD [] ++ pending.map (rowOf env)) :=
    runPending_ok_log rfl hrun
  have hchain2 : chainSeq 1 (xs ++ pending) = true := by
    rw [← hsplit]
    exact hchain
  rw [chainSeq_append, Bool.and_eq_true] at hchain2
  have hxs := hchain2.1
  have hpend := hchain2.2
  have hOldLt : ∀ r ∈ db.logTable.getD [], r.seq < 1 + xs.length := by
    intro r hr
    have hr2 : r ∈ sortBySeq (db.logTable.getD []) := by
      unfold sortBySeq
      exact mem_sortByKey.mpr hr
    obtain ⟨u, hu, hus⟩ := matches_mem_row hm r hr2
    have hbd := chainSeq_mem_bounds hxs u hu
    omega
  have hNewGe : ∀ n ∈ pending.map (rowOf env), 1 + xs.length ≤ n.seq := by
    intro n hn
    obtain ⟨p, hp, hpn⟩ := List.mem_map.mp hn
    have hbd := chainSeq_mem_bounds hpend p hp
    rw [← hpn]
    exact hbd.1
  have hSep : ∀ a ∈ db.logTable.getD [], ∀ b ∈ pending.map (rowOf env),
      (fun r : LogRow => r.seq) a < (fun r : LogRow => r.seq) b := by
    intro a ha b hb2
    have h1 := hOldLt a ha
    have h2 := hNewGe b hb2
    simpa using by omega
  have hChainNew : List.Chain' (fun a b : LogRow =>
      (fun r : LogRow => r.seq) a ≤ (fun r : LogRow => r.seq) b)
      (pending.map (rowOf env)) := by
    rw [List.chain'_map]
    exact chainSeq_chain_le hpend
  have hsorted : sortBySeq (db.logTable.getD [] ++ pending.map (rowOf env))
      = sortBySeq (db.logTable.getD []) ++ pending.map (rowOf env) :=
    sortByKey_append_of_lt hSep hChainNew
  have hrec2 : reconcile avail
      (sortBySeq (db.logTable.getD []) ++ pending.map (rowOf env)) = .ok [] := by
    rw [hsplit, reconcile_append hm pending (pending.map (rowOf env))]
    exact reconcile_all_applied env pending
  have hct : createTable db' = db' := createTable_of_some hlog'
  have htx2 : applyTx env avail db' = (.ok db', [.execCreate, .selectLog]) := by
    unfold applyTx
    rw [if_neg (by simp [hc])]
    have hquery2 : queryLog env (createTable db')
        = .ok (sortBySeq (db.logTable.getD []) ++ pending.map (rowOf env)) := by
      rw [hct]
      simp only [queryLog, hlog', hq, Bool.false_eq_true, if_false]
      rw [hsorted]
    simp only [hquery2, hrec2, runPending]
    rw [hct]
  unfold Apply
  simp only [hload, hb, Bool.false_eq_true, if_false, htx2, hcm]
  rfl

/-- Witness for C2: a successful first run of `1.sql, 2.sql, 3.sql` on a
fresh database followed by a second run that executes nothing and succeeds. -/
theorem apply_idempotent_witness :
    Apply envAllOk [fsA, fsB, fsC] (Apply envAllOk [fsA, fsB, fsC] dbEmpty).2.1
      = (none, (Apply envAllOk [fsA, fsB, fsC] dbEmpty).2.1,
          [.txBegin, .execCreate, .selectLog, .txCommit]) :=
  apply_idempotent envAllOk [fsA, fsB, fsC] dbEmpty
    (Apply envAllOk [fsA, fsB, fsC] dbEmpty).2.1
    (Apply envAllOk [fsA, fsB, fsC] dbEmpty).2.2 (by decide)

theorem runPending_ok_execs {σ : Type} {env : Env σ} {ups : List Update}
    {tx tx2 : DBState σ} :
    (runPending env ups tx).1 = .ok tx2 →
    (runPending env ups tx).2.filter Event.isExec
      = ups.map (fun u => Event.execStmt u.contents) := by
  induction ups generalizing tx with
  | nil => intro _; rfl
  | cons up t ih =>
    simp only [runPending]
    cases hexec : env.exec tx.schema up.contents with
    | none =>
      dsimp only
      intro h
      exact Except.noConfusion h
    | some s1 =>
      dsimp only
      cases hins : insertLogRow env (rowOf env up) { tx with schema := s1 } with
      | error e =>
        dsimp only
        intro h
        exact Except.noConfusion h
      | ok tx3 =>
        dsimp only
        intro h
        simp only [List.map_cons, List.filter, Event.isExec]
        rw [ih h]

theorem runPending_no_select {σ : Type} (env : Env σ) (ups : List Update)
    (tx : DBState σ) : Event.selectLog ∉ (runPending env ups tx).2 := by
  induction ups generalizing tx with
  | nil => simp [runPending]
  | cons up t ih =>
    simp only [runPending]
    cases hexec : env.exec tx.schema up.contents with
    | none => simp
    | some s1 =>
      dsimp only
      cases hins : insertLogRow env (rowOf env up) { tx with schema := s1 } with
      | error e =>
        dsimp only
        simp
      | ok tx3 =>
        dsimp only
        simp [ih]

/-- C8 (spec-modelled): `ApplyUnsafe` skips reconciliation entirely — its
trace never reads the applied log — and, when it succeeds, it has executed
exactly the SQL body of every loaded update, unconditionally, in the loaded
(ascending-sequence, `1..N`) order. -/
theorem applyUnsafe_applies_all_without_reconciliation {σ : Type} (env : Env σ)
    (files : List FileEntry) (db db' : DBState σ) (tr : List Event)
    (avail : List Update)
    (hload : loadUpdates env.hash files = .ok avail)
    (h : ApplyUnsafe env files db = (none, db', tr)) :
    tr.filter Event.isExec = avail.map (fun u => Event.execStmt u.contents)
    ∧ Event.selectLog ∉ tr
    ∧ avail.map Update.seq = List.range' 1 avail.length := by
  unfold ApplyUnsafe at h
  simp only [hload] at h
  by_cases hb : env.beginFails = true
  · rw [if_pos hb] at h
    simp at h
  · rw [if_neg hb] at h
    by_cases hc : env.createFails = true
    · rw [if_pos hc] at h
      simp at h
    · rw [if_neg hc] at h
      cases hrp : runPending env avail (createTable db) with
      | mk res evs =>
        rw [hrp] at h
        cases res with
        | error e =>
          dsimp only at h
          simp at h
        | ok txF =>
          dsimp only at h
          by_cases hcm : env.commitFails = true
          · rw [if_pos hcm] at h
            simp at h
          · rw [if_neg hcm] at h
            simp only [Prod.mk.injEq] at h
            have htr : tr
                = .txBegin :: .execCreate :: (evs ++ [.txCommit]) := h.2.2.symm
            have h1 : (runPending env avail (createTable db)).1 = .ok txF := by
              rw [hrp]
            have h2 : (runPending env avail (createTable db)).2 = evs := by
              rw [hrp]
            refine ⟨?_, ?_, chainSeq_range (loadUpdates_ok_parts hload).1⟩
            · rw [htr]
              simp only [List.filter, Event.isExec, List.filter_append]
              rw [← h2, runPending_ok_execs h1]
              simp [List.filter, Event.isExec]
            · rw [htr]
              simp only [List.mem_cons, List.mem_append]
              push_neg
              refine ⟨by simp, by simp, ?_, by simp⟩
              rw [← h2]
              exact runPending_no_select env avail (createTable db)

/-- Witness for C8: on a fresh database `ApplyUnsafe` with `1.sql, 2.sql,
3.sql` executes exactly the three SQL bodies in order and never reads the
applied log. -/
theorem applyUnsafe_applies_all_witness :
    (ApplyUnsafe envAllOk [fsA, fsB, fsC] dbEmpty).2.2.filter Event.isExec
      = [⟨"1.sql", 1, "A", "", "A"⟩, ⟨"2.sql", 2, "B", "", "B"⟩,
          (⟨"3.sql", 3, "C", "", "C"⟩ : Update)].map
            (fun u => Event.execStmt u.contents)
    ∧ Event.selectLog ∉ (ApplyUnsafe envAllOk [fsA, fsB, fsC] dbEmpty).2.2
    ∧ ([⟨"1.sql", 1, "A", "", "A"⟩, ⟨"2.sql", 2, "B", "", "B"⟩,
          (⟨"3.sql", 3, "C", "", "C"⟩ : Update)].map Update.seq
        = List.range' 1 3) :=
  applyUnsafe_applies_all_without_reconciliation envAllOk [fsA, fsB, fsC] dbEmpty
    (ApplyUnsafe envAllOk [fsA, fsB, fsC] dbEmpty).2.1
    (ApplyUnsafe envAllOk [fsA, fsB, fsC] dbEmpty).2.2
    [⟨"1.sql", 1, "A", "", "A"⟩, ⟨"2.sql", 2, "B", "", "B"⟩,
      ⟨"3.sql", 3, "C", "", "C"⟩]
    rfl (by decide)

end SqlSchema
